import Mathlib

/-!
Verification of the attribution pipeline in src/pipeline.py against its
natural-language specification.  The Python code is shallowly embedded:
Python dicts become insertion-ordered association lists, Python float
arithmetic is idealised as exact rational arithmetic, and the pandas
operations used by the pipeline (row filtering, sorting by a column,
label-based loc slicing) are embedded with their documented semantics.
-/

/-- A Python dict with string keys and numeric values, embedded as an
insertion-ordered association list with exact rational values. -/
abbrev PyDict := List (String × ℚ)

/-- Embeds the Python dict assignment d[k] = v: the value at an existing key
is overwritten in place, otherwise the new key is appended at the end. -/
def dictSet (d : PyDict) (k : String) (v : ℚ) : PyDict :=
  match d with
  | [] => [(k, v)]
  | p :: rest => if p.1 = k then (k, v) :: rest else p :: dictSet rest k v

/-- Embeds Python d.get(k, v0). -/
def dictGetD (d : PyDict) (k : String) (v0 : ℚ) : ℚ :=
  match d with
  | [] => v0
  | p :: rest => if p.1 = k then p.2 else dictGetD rest k v0

/-- Embeds the Python dict lookup d[k] as an optional value. -/
def dictFind (d : PyDict) (k : String) : Option ℚ :=
  match d with
  | [] => none
  | p :: rest => if p.1 = k then some p.2 else dictFind rest k

/-- Sum of the values of a dict, as in sum(d.values()). -/
def dictSum (d : PyDict) : ℚ := (d.map Prod.snd).sum

/-- Embeds calculate_attribution_scores from src/pipeline.py (lines 78 to 127).
The branch structure mirrors the source exactly: an empty journey returns the
empty dict before any dispatch on the method name; each recognised method
fills the dict with plain assignments (so a repeated URL overwrites its
earlier credit); an unrecognised method falls through every branch and the
initial empty dict is returned, since the source raises no exception. -/
def calculate_attribution_scores (journey : List String) (method : String) : PyDict :=
  if journey = [] then []
  else if method = "count" then
    journey.foldl (fun scores article => dictSet scores article 1) []
  else if method = "first_touch" then
    dictSet [] (journey.headD "") 1
  else if method = "last_touch" then
    dictSet [] (journey.getLastD "") 1
  else if method = "linear" then
    journey.foldl (fun scores article => dictSet scores article (1 / (journey.length : ℚ))) []
  else if method = "position_based" then
    if journey.length = 1 then
      dictSet [] (journey.headD "") 1
    else
      journey.enum.foldl
        (fun scores p =>
          if p.1 = 0 then dictSet scores p.2 0.4
          else if p.1 = journey.length - 1 then dictSet scores p.2 0.4
          else dictSet scores p.2 0.2) []
  else if method = "time_decay" then
    if journey.length = 1 then
      dictSet [] (journey.headD "") 1
    else
      journey.enum.foldl
        (fun scores p =>
          dictSet scores p.2
            ((2 : ℚ) ^ p.1 / ((List.range journey.length).map (fun i => (2 : ℚ) ^ i)).sum)) []
  else []

/-- One row of the input hitlog CSV, after pd.read_csv and pd.to_datetime:
the timestamp is already parsed into a totally ordered instant, embedded as a
natural number. -/
structure Row where
  page_name : String
  page_url : String
  user_id : String
  timestamp : Nat
deriving DecidableEq

/-- The three columns of a row that analyze_user_journeys actually reads
(page_url, user_id and timestamp; the input page_name column is never
accessed by the analysis). -/
structure Event where
  page_url : String
  user_id : String
  timestamp : Nat
deriving DecidableEq

/-- Projection of a row to the columns read by the analysis. -/
def toEvent (r : Row) : Event := Event.mk r.page_url r.user_id r.timestamp

/-- Embeds the iteration over df["user_id"].unique(): the user ids in order
of first appearance in the log. -/
def uniqueUsers (es : List Event) : List String :=
  es.foldl (fun acc e => if e.user_id ∈ acc then acc else acc ++ [e.user_id]) []

/-- Stable insertion of a labelled event into a list sorted by timestamp:
the new element is placed after every existing element whose timestamp is
less than or equal to its own. -/
def insertByTime (p : Nat × Event) : List (Nat × Event) → List (Nat × Event)
  | [] => [p]
  | q :: qs =>
    if q.2.timestamp ≤ p.2.timestamp then q :: insertByTime p qs else p :: q :: qs

/-- Embeds user_data.sort_values("timestamp").  The default pandas sort kind
is quicksort, which fixes no order between rows with equal timestamps; the
embedding uses a stable sort, and every concrete input evaluated below has
pairwise distinct timestamps within each user, where all comparison sorts
agree. -/
def sortByTime (l : List (Nat × Event)) : List (Nat × Event) :=
  l.foldl (fun acc p => insertByTime p acc) []

/-- True when the list of index labels is sorted in nondecreasing order. -/
def monoInc : List Nat → Bool
  | [] => true
  | [_] => true
  | a :: b :: t => decide (a ≤ b) && monoInc (b :: t)

/-- True when the list of index labels is sorted in nonincreasing order. -/
def monoDec : List Nat → Bool
  | [] => true
  | [_] => true
  | a :: b :: t => decide (b ≤ a) && monoDec (b :: t)

/-- Embeds the pandas label slice user_data.loc[:b] on a frame whose integer
index (unique, since the labels come from the RangeIndex of the loaded CSV)
is rows.map Prod.fst.  Pandas first looks the label b itself up in the index
and, when present, slices positionally up to and including it; when b is
absent it falls back to binary search on a monotonic index, and on a
non-monotonic index it raises KeyError, embedded as none. -/
def locUpTo (rows : List (Nat × Event)) (b : Int) : Option (List (Nat × Event)) :=
  match rows.findIdx? (fun p => (p.1 : Int) == b) with
  | some i => some (rows.take (i + 1))
  | none =>
    if monoInc (rows.map Prod.fst) then
      some (rows.takeWhile (fun p => decide ((p.1 : Int) ≤ b)))
    else if monoDec (rows.map Prod.fst) then
      some (rows.takeWhile (fun p => decide (b ≤ (p.1 : Int))))
    else none

/-- Embeds the body of the per-user loop of analyze_user_journeys
(src/pipeline.py lines 156 to 171) for one user id: filter the labelled
events to the user, sort them by timestamp, look for the first registration
row in the sorted order, take its original index label r and slice with
loc[:r - 1], and keep the page_url column of the slice.  The result is none
for a pandas KeyError, some none when the user contributes no journey, and
some (some arts) when the user contributes the journey arts. -/
def journeyOfUser (les : List (Nat × Event)) (u : String) : Option (Option (List String)) :=
  let user_data := sortByTime (les.filter (fun p => p.2.user_id == u))
  match user_data.find? (fun p => p.2.page_url == "/register") with
  | none => some none
  | some reg =>
    match locUpTo user_data ((reg.1 : Int) - 1) with
    | none => none
    | some seg =>
      let arts := seg.map (fun p => p.2.page_url)
      if arts.isEmpty then some none else some (some arts)

/-- Embeds the journey-extraction loop of analyze_user_journeys
(src/pipeline.py lines 149 to 171) on the event projection of the log:
events are labelled with their original row numbers, and the qualifying
users are collected, in first-appearance order, with their journeys.
The result is none when pandas raises. -/
def extract_journeys_events (es : List Event) : Option (List (String × List String)) :=
  let les := es.enum
  (uniqueUsers es).foldl
    (fun acc u =>
      match acc with
      | none => none
      | some js =>
        match journeyOfUser les u with
        | none => none
        | some none => some js
        | some (some arts) => some (js ++ [(u, arts)]))
    (some [])

/-- Journey extraction on raw rows: the analysis reads only the page_url,
user_id and timestamp columns, so the rows are first projected to those. -/
def extract_journeys (rows : List Row) : Option (List (String × List String)) :=
  extract_journeys_events (rows.map toEvent)

/-- Embeds the aggregation loop of analyze_user_journeys (lines 174 to 179):
article_scores[article] = article_scores.get(article, 0) + score, over every
journey in extraction order. -/
def aggregate_scores (journeys : List (String × List String)) (method : String) : PyDict :=
  journeys.foldl
    (fun acc uj =>
      (calculate_attribution_scores uj.2 method).foldl
        (fun a p => dictSet a p.1 (dictGetD a p.1 0 + p.2)) acc)
    []

/-- Embeds the Python test url.startswith(p): a character-prefix test. -/
def startsWith (s p : String) : Bool := p.data.isPrefixOf s.data

/-- Splits a character list at every occurrence of the separator, with the
semantics of the Python str.split method: n separators yield n + 1 pieces,
and the empty input yields one empty piece. -/
def splitOnChar (sep : Char) : List Char → List (List Char)
  | [] => [[]]
  | c :: cs =>
    let r := splitOnChar sep cs
    if c = sep then [] :: r else (c :: r.headD []) :: r.tail

/-- Embeds Python url.split("/")[-1]: the final slash-separated segment. -/
def lastSegment (s : String) : String := String.mk ((splitOnChar '/' s.data).getLastD [])

/-- One row of the result frame of analyze_user_journeys. -/
structure ResultRow where
  page_name : String
  page_url : String
  total : ℚ
deriving DecidableEq

/-- Stable insertion for the descending sort on the total column: a new row
is placed after every existing row whose total is greater than or equal to
its own. -/
def insertDesc (r : ResultRow) : List ResultRow → List ResultRow
  | [] => [r]
  | q :: qs => if r.total ≤ q.total then q :: insertDesc r qs else r :: q :: qs

/-- Embeds results_df.sort_values("total", ascending=False) as a descending
sort on the total column.  As with sortByTime, pandas fixes no order between
rows with equal totals (the default sort kind is quicksort, and descending
order is produced from the ascending permutation); none of the facts proved
below depend on the order of tied rows. -/
def sortDesc (l : List ResultRow) : List ResultRow :=
  l.foldl (fun acc r => insertDesc r acc) []

/-- Embeds analyze_user_journeys from src/pipeline.py (lines 130 to 193) end
to end: extract the journeys, aggregate the per-journey attribution scores,
keep the urls that start with the content namespace, build the result rows
with the page name recomputed as the last url segment, and sort descending
by total.  The early return of an empty frame when no url qualifies
coincides with sorting the empty row list.  The result is none when pandas
raises during extraction. -/
def analyze_user_journeys (rows : List Row) (method : String) : Option (List ResultRow) :=
  match extract_journeys rows with
  | none => none
  | some journeys =>
    let article_scores := aggregate_scores journeys method
    let results := article_scores.filterMap
      (fun p =>
        if startsWith p.1 "/articles/" then
          some (ResultRow.mk (lastSegment p.1) p.1 p.2)
        else none)
    some (sortDesc results)

/-- Input of the C4 evaluation: one user whose log order disagrees with the
timestamp order, with the registration earliest in time but in the middle of
the log. -/
def c4rows : List Row :=
  [Row.mk "article-a" "/articles/a" "u1" 3,
   Row.mk "Register" "/register" "u1" 1,
   Row.mk "article-b" "/articles/b" "u1" 2]

/-- Input of the C7 evaluation: one user whose registration is the earliest
event in time but the later row in the log. -/
def c7rows : List Row :=
  [Row.mk "article-a" "/articles/a" "u2" 2,
   Row.mk "Register" "/register" "u2" 1]

/-- Input of the C10 witness: one user who reads one article and then
registers, in log order equal to time order. -/
def c10rows : List Row :=
  [Row.mk "article1" "/articles/article1" "u1" 0,
   Row.mk "Register" "/register" "u1" 1]

/-! Basic facts about the dict embedding. -/

theorem dictSet_of_not_mem (d : PyDict) (k : String) (v : ℚ)
    (h : k ∉ d.map Prod.fst) : dictSet d k v = d ++ [(k, v)] := by
  induction d with
  | nil => rfl
  | cons p rest ih =>
    simp only [List.map_cons, List.mem_cons, not_or] at h
    simp [dictSet, Ne.symm h.1, ih h.2]

theorem dictSet_keys_of_not_mem (d : PyDict) (k : String) (v : ℚ)
    (h : k ∉ d.map Prod.fst) :
    (dictSet d k v).map Prod.fst = d.map Prod.fst ++ [k] := by
  rw [dictSet_of_not_mem d k v h]; simp

theorem mem_dictSet (d : PyDict) (k : String) (v : ℚ) (p : String × ℚ)
    (h : p ∈ dictSet d k v) : p ∈ d ∨ p = (k, v) := by
  induction d with
  | nil =>
    simp only [dictSet, List.mem_singleton] at h
    exact Or.inr h
  | cons q rest ih =>
    by_cases hq : q.1 = k
    · simp only [dictSet, if_pos hq, List.mem_cons] at h
      rcases h with h | h
      · exact Or.inr h
      · exact Or.inl (List.mem_cons.mpr (Or.inr h))
    · simp only [dictSet, if_neg hq, List.mem_cons] at h
      rcases h with h | h
      · exact Or.inl (List.mem_cons.mpr (Or.inl h))
      · rcases ih h with h' | h'
        · exact Or.inl (List.mem_cons.mpr (Or.inr h'))
        · exact Or.inr h'

theorem dictSet_mem_keys (d : PyDict) (k : String) (v : ℚ) (c : String) :
    c ∈ (dictSet d k v).map Prod.fst ↔ c ∈ d.map Prod.fst ∨ c = k := by
  induction d with
  | nil => simp [dictSet]
  | cons q rest ih =>
    by_cases hq : q.1 = k
    · simp only [dictSet, if_pos hq, List.map_cons, List.mem_cons]
      rw [hq]
      tauto
    · simp only [dictSet, if_neg hq, List.map_cons, List.mem_cons, ih]
      tauto

theorem dictSet_keys_nodup (d : PyDict) (k : String) (v : ℚ)
    (h : (d.map Prod.fst).Nodup) : ((dictSet d k v).map Prod.fst).Nodup := by
  induction d with
  | nil => simp [dictSet]
  | cons q rest ih =>
    simp only [List.map_cons, List.nodup_cons] at h
    by_cases hq : q.1 = k
    · simp only [dictSet, if_pos hq, List.map_cons, List.nodup_cons]
      exact ⟨by rw [← hq]; exact h.1, h.2⟩
    · have h1 : q.1 ∉ (dictSet rest k v).map Prod.fst := by
        rw [dictSet_mem_keys]
        rintro (hc | hc)
        · exact h.1 hc
        · exact hq hc
      simp only [dictSet, if_neg hq, List.map_cons, List.nodup_cons]
      exact ⟨h1, ih h.2⟩

theorem foldl_dictSet_keys_nodup {α : Type} (l : List α) (f : α → String)
    (g : PyDict → α → ℚ) (d : PyDict) (h : (d.map Prod.fst).Nodup) :
    ((l.foldl (fun s x => dictSet s (f x) (g s x)) d).map Prod.fst).Nodup := by
  induction l generalizing d with
  | nil => simpa using h
  | cons x t ih =>
    simp only [List.foldl_cons]
    exact ih _ (dictSet_keys_nodup _ _ _ h)

theorem dictFind_of_mem (d : PyDict) (k : String) (v : ℚ)
    (hn : (d.map Prod.fst).Nodup) (hm : (k, v) ∈ d) : dictFind d k = some v := by
  induction d with
  | nil => simp at hm
  | cons q rest ih =>
    simp only [List.map_cons, List.nodup_cons] at hn
    rcases List.mem_cons.mp hm with h | h
    · simp [dictFind, ← h]
    · have hk : q.1 ≠ k := by
        intro he
        exact hn.1 (by rw [he]; exact List.mem_map_of_mem Prod.fst h)
      simp [dictFind, hk, ih hn.2 h]

theorem mem_of_dictFind (d : PyDict) (k : String) (v : ℚ)
    (h : dictFind d k = some v) : (k, v) ∈ d := by
  induction d with
  | nil => simp [dictFind] at h
  | cons q rest ih =>
    by_cases hq : q.1 = k
    · simp only [dictFind, if_pos hq, Option.some.injEq] at h
      have hqe : q = (k, v) := by
        rw [Prod.ext_iff]
        exact ⟨hq, h⟩
      exact List.mem_cons.mpr (Or.inl hqe.symm)
    · simp only [dictFind, if_neg hq] at h
      exact List.mem_cons.mpr (Or.inr (ih h))

theorem dictFind_exists (d : PyDict) (k : String)
    (h : k ∈ d.map Prod.fst) : ∃ v, dictFind d k = some v := by
  induction d with
  | nil => simp at h
  | cons q rest ih =>
    by_cases hq : q.1 = k
    · exact ⟨q.2, by simp [dictFind, hq]⟩
    · simp only [List.map_cons, List.mem_cons] at h
      rcases h with h | h
      · exact absurd h.symm hq
      · obtain ⟨v, hv⟩ := ih h
        exact ⟨v, by simp [dictFind, hq, hv]⟩

/-! Characterisation of the score-building folds on journeys with distinct
urls: every assignment hits a fresh key, so the built dict is exactly the
association list of per-position credits. -/

theorem const_foldl_dictSet (j : List String) (c : ℚ) (hn : j.Nodup) :
    ∀ d : PyDict, (∀ a ∈ j, a ∉ d.map Prod.fst) →
      j.foldl (fun s a => dictSet s a c) d = d ++ j.map (fun a => (a, c)) := by
  induction j with
  | nil => intro d _; simp
  | cons a t ih =>
    intro d hd
    simp only [List.nodup_cons] at hn
    have hnotin : a ∉ d.map Prod.fst := hd a (by simp)
    have hset := dictSet_of_not_mem d a c hnotin
    have hd2 : ∀ b ∈ t, b ∉ (dictSet d a c).map Prod.fst := by
      intro b hb
      rw [dictSet_keys_of_not_mem d a c hnotin]
      simp only [List.mem_append, List.mem_singleton, not_or]
      exact ⟨hd b (by simp [hb]), fun hc => hn.1 (hc ▸ hb)⟩
    calc (a :: t).foldl (fun s x => dictSet s x c) d
        = t.foldl (fun s x => dictSet s x c) (dictSet d a c) := rfl
      _ = dictSet d a c ++ t.map (fun x => (x, c)) := ih hn.2 _ hd2
      _ = d ++ (a :: t).map (fun x => (x, c)) := by rw [hset]; simp

theorem enumFrom_foldl_dictSet (c : Nat → ℚ) (j : List String) :
    ∀ (k : Nat) (d : PyDict), j.Nodup → (∀ a ∈ j, a ∉ d.map Prod.fst) →
      (j.enumFrom k).foldl (fun s p => dictSet s p.2 (c p.1)) d
        = d ++ (j.enumFrom k).map (fun p => (p.2, c p.1)) := by
  induction j with
  | nil => intro k d _ _; simp [List.enumFrom]
  | cons a t ih =>
    intro k d hn hd
    simp only [List.nodup_cons] at hn
    have hnotin : a ∉ d.map Prod.fst := hd a (by simp)
    have hset := dictSet_of_not_mem d a (c k) hnotin
    have hd2 : ∀ b ∈ t, b ∉ (dictSet d a (c k)).map Prod.fst := by
      intro b hb
      rw [dictSet_keys_of_not_mem d a (c k) hnotin]
      simp only [List.mem_append, List.mem_singleton, not_or]
      exact ⟨hd b (by simp [hb]), fun hc => hn.1 (hc ▸ hb)⟩
    calc ((a :: t).enumFrom k).foldl (fun s p => dictSet s p.2 (c p.1)) d
        = (t.enumFrom (k + 1)).foldl (fun s p => dictSet s p.2 (c p.1)) (dictSet d a (c k)) := rfl
      _ = dictSet d a (c k) ++ (t.enumFrom (k + 1)).map (fun p => (p.2, c p.1)) :=
          ih (k + 1) _ hn.2 hd2
      _ = d ++ ((a :: t).enumFrom k).map (fun p => (p.2, c p.1)) := by
          rw [hset]; simp [List.enumFrom]

theorem enum_pairs_keys (j : List String) (c : Nat → ℚ) :
    (j.enum.map (fun p => (p.2, c p.1))).map Prod.fst = j := by
  rw [List.map_map,
    show (Prod.fst ∘ fun p : Nat × String => (p.2, c p.1)) = Prod.snd from rfl,
    List.enum_map_snd]

theorem enum_pairs_values (j : List String) (c : Nat → ℚ) :
    (j.enum.map (fun p => (p.2, c p.1))).map Prod.snd = (List.range j.length).map c := by
  rw [List.map_map,
    show (Prod.snd ∘ fun p : Nat × String => (p.2, c p.1)) = (c ∘ Prod.fst) from rfl,
    ← List.map_map, List.enum_map_fst]

theorem enum_pairs_mem (j : List String) (c : Nat → ℚ) (i : Nat) (hi : i < j.length) :
    (j.get ⟨i, hi⟩, c i) ∈ j.enum.map (fun p => (p.2, c p.1)) := by
  have hl : i < (j.enum.map (fun p => (p.2, c p.1))).length := by simpa using hi
  have h1 : (j.enum.map (fun p => (p.2, c p.1)))[i] = (j.get ⟨i, hi⟩, c i) := by
    simp [List.getElem_map, List.getElem_enum, List.get_eq_getElem]
  rw [← h1]
  exact List.getElem_mem hl

/-! Sum helpers. -/

theorem sum_map_const_q (l : List String) (c : ℚ) :
    (l.map (fun _ => c)).sum = l.length * c := by
  induction l with
  | nil => simp
  | cons a t ih =>
    simp only [List.map_cons, List.sum_cons, ih, List.length_cons]
    push_cast
    ring

theorem sum_map_div_q (l : List ℚ) (c : ℚ) :
    (l.map (fun x => x / c)).sum = l.sum / c := by
  induction l with
  | nil => simp
  | cons a t ih => simp [ih, add_div]

theorem head_credit_sum (k : Nat) :
    ((List.range (k + 1)).map (fun i => if i = 0 then (0.4 : ℚ) else 0.2)).sum
      = 0.4 + (k : ℚ) * 0.2 := by
  induction k with
  | zero => simp [List.range_succ]
  | succ k ih =>
    rw [List.range_succ, List.map_append, List.sum_append, ih]
    push_cast
    norm_num
    ring

theorem pos_credit_sum (m : Nat) :
    ((List.range (m + 2)).map
        (fun i => if i = 0 then (0.4 : ℚ) else if i = m + 1 then 0.4 else 0.2)).sum
      = ((m : ℚ) + 4) / 5 := by
  rw [List.range_succ, List.map_append, List.sum_append]
  have hcong : (List.range (m + 1)).map
        (fun i => if i = 0 then (0.4 : ℚ) else if i = m + 1 then 0.4 else 0.2)
      = (List.range (m + 1)).map (fun i => if i = 0 then (0.4 : ℚ) else 0.2) := by
    apply List.map_congr_left
    intro i hi
    have hilt : i < m + 1 := List.mem_range.mp hi
    have hne : i ≠ m + 1 := by omega
    simp [hne]
  rw [hcong, head_credit_sum]
  norm_num
  ring_nf

/-! Per-policy normal forms of the scorer. -/

theorem pb_step_eq (n : Nat) :
    (fun (scores : PyDict) (p : Nat × String) =>
        if p.1 = 0 then dictSet scores p.2 0.4
        else if p.1 = n - 1 then dictSet scores p.2 0.4
        else dictSet scores p.2 0.2)
      = fun scores p =>
          dictSet scores p.2 (if p.1 = 0 then 0.4 else if p.1 = n - 1 then 0.4 else 0.2) := by
  funext s p
  by_cases h0 : p.1 = 0
  · simp [h0]
  · by_cases h1 : p.1 = n - 1 <;> simp [h0, h1]

theorem calc_first_touch (j : List String) (h : j ≠ []) :
    calculate_attribution_scores j "first_touch" = [(j.headD "", 1)] := by
  simp [calculate_attribution_scores, h, dictSet]

theorem calc_last_touch (j : List String) (h : j ≠ []) :
    calculate_attribution_scores j "last_touch" = [(j.getLastD "", 1)] := by
  simp [calculate_attribution_scores, h, dictSet]

theorem calc_count (j : List String) (h : j ≠ []) :
    calculate_attribution_scores j "count"
      = j.foldl (fun s a => dictSet s a 1) [] := by
  simp [calculate_attribution_scores, h]

theorem calc_linear (j : List String) (h : j ≠ []) (hn : j.Nodup) :
    calculate_attribution_scores j "linear"
      = j.map (fun a => (a, 1 / (j.length : ℚ))) := by
  have hfold := const_foldl_dictSet j (1 / (j.length : ℚ)) hn [] (by simp)
  simpa [calculate_attribution_scores, h] using hfold

theorem calc_singleton_pb (a : String) :
    calculate_attribution_scores [a] "position_based" = [(a, 1)] := by
  simp [calculate_attribution_scores, dictSet]

theorem calc_singleton_td (a : String) :
    calculate_attribution_scores [a] "time_decay" = [(a, 1)] := by
  simp [calculate_attribution_scores, dictSet]

theorem calc_position_based (j : List String) (h1 : 1 < j.length) (hn : j.Nodup) :
    calculate_attribution_scores j "position_based"
      = j.enum.map
          (fun p => (p.2, if p.1 = 0 then (0.4 : ℚ)
                          else if p.1 = j.length - 1 then 0.4 else 0.2)) := by
  have hne : j ≠ [] := by
    intro he
    rw [he] at h1
    simp at h1
  have hlen : j.length ≠ 1 := by omega
  have hfold := enumFrom_foldl_dictSet
    (fun i => if i = 0 then (0.4 : ℚ) else if i = j.length - 1 then 0.4 else 0.2)
    j 0 [] hn (by simp)
  calc calculate_attribution_scores j "position_based"
      = j.enum.foldl
          (fun scores p =>
            if p.1 = 0 then dictSet scores p.2 0.4
            else if p.1 = j.length - 1 then dictSet scores p.2 0.4
            else dictSet scores p.2 0.2) [] := by
        simp [calculate_attribution_scores, hne, hlen]
    _ = j.enum.foldl
          (fun scores p =>
            dictSet scores p.2
              (if p.1 = 0 then (0.4 : ℚ) else if p.1 = j.length - 1 then 0.4 else 0.2)) [] := by
        rw [pb_step_eq j.length]
    _ = j.enum.map
          (fun p => (p.2, if p.1 = 0 then (0.4 : ℚ)
                          else if p.1 = j.length - 1 then 0.4 else 0.2)) := by
        simpa [List.enum] using hfold

theorem calc_time_decay (j : List String) (h1 : 1 < j.length) (hn : j.Nodup) :
    calculate_attribution_scores j "time_decay"
      = j.enum.map
          (fun p => (p.2,
            (2 : ℚ) ^ p.1 / ((List.range j.length).map (fun i => (2 : ℚ) ^ i)).sum)) := by
  have hne : j ≠ [] := by
    intro he
    rw [he] at h1
    simp at h1
  have hlen : j.length ≠ 1 := by omega
  have hfold := enumFrom_foldl_dictSet
    (fun i => (2 : ℚ) ^ i / ((List.range j.length).map (fun i => (2 : ℚ) ^ i)).sum)
    j 0 [] hn (by simp)
  calc calculate_attribution_scores j "time_decay"
      = j.enum.foldl
          (fun scores p =>
            dictSet scores p.2
              ((2 : ℚ) ^ p.1 / ((List.range j.length).map (fun i => (2 : ℚ) ^ i)).sum)) [] := by
        simp [calculate_attribution_scores, hne, hlen]
    _ = j.enum.map
          (fun p => (p.2,
            (2 : ℚ) ^ p.1 / ((List.range j.length).map (fun i => (2 : ℚ) ^ i)).sum)) := by
        simpa [List.enum] using hfold

/-! Credit totals per policy, on journeys with pairwise distinct urls. -/

theorem sum_first_touch (j : List String) (h : j ≠ []) :
    dictSum (calculate_attribution_scores j "first_touch") = 1 := by
  rw [calc_first_touch j h]
  simp [dictSum]

theorem sum_last_touch (j : List String) (h : j ≠ []) :
    dictSum (calculate_attribution_scores j "last_touch") = 1 := by
  rw [calc_last_touch j h]
  simp [dictSum]

theorem sum_linear (j : List String) (h : j ≠ []) (hn : j.Nodup) :
    dictSum (calculate_attribution_scores j "linear") = 1 := by
  rw [calc_linear j h hn]
  have hlen : (j.length : ℚ) ≠ 0 :=
    Nat.cast_ne_zero.mpr (fun hc => h (List.length_eq_zero.mp hc))
  unfold dictSum
  rw [List.map_map,
    show (Prod.snd ∘ fun a : String => (a, 1 / (j.length : ℚ)))
        = (fun _ => 1 / (j.length : ℚ)) from rfl,
    sum_map_const_q]
  exact mul_one_div_cancel hlen

theorem sum_time_decay (j : List String) (h : j ≠ []) (hn : j.Nodup) :
    dictSum (calculate_attribution_scores j "time_decay") = 1 := by
  rcases Nat.lt_or_ge 1 j.length with h1 | h1
  · rw [calc_time_decay j h1 hn]
    unfold dictSum
    have hv : (j.enum.map
          (fun p : Nat × String => (p.2,
            (2 : ℚ) ^ p.1 / ((List.range j.length).map (fun i => (2 : ℚ) ^ i)).sum))).map Prod.snd
        = (List.range j.length).map
            (fun i => (2 : ℚ) ^ i / ((List.range j.length).map (fun i => (2 : ℚ) ^ i)).sum) :=
      enum_pairs_values j
        (fun i => (2 : ℚ) ^ i / ((List.range j.length).map (fun i => (2 : ℚ) ^ i)).sum)
    rw [hv]
    have hS : (0 : ℚ) < ((List.range j.length).map (fun i => (2 : ℚ) ^ i)).sum := by
      apply List.sum_pos
      · intro x hx
        simp only [List.mem_map] at hx
        obtain ⟨i, _, rfl⟩ := hx
        positivity
      · have : j.length ≠ 0 := by omega
        simp [List.range_eq_nil, this]
    have hmm2 : (((List.range j.length).map (fun i => (2 : ℚ) ^ i)).map
          (fun x => x / ((List.range j.length).map (fun i => (2 : ℚ) ^ i)).sum)).sum
        = ((List.range j.length).map
            (fun i => (2 : ℚ) ^ i
              / ((List.range j.length).map (fun i => (2 : ℚ) ^ i)).sum)).sum := by
      rw [List.map_map]
      rfl
    rw [← hmm2, sum_map_div_q, div_self hS.ne']
  · have hlen1 : j.length = 1 := by
      have : j.length ≠ 0 := fun hc => h (List.length_eq_zero.mp hc)
      omega
    obtain ⟨a, rfl⟩ := List.length_eq_one.mp hlen1
    rw [calc_singleton_td a]
    simp [dictSum]

theorem sum_position_based (j : List String) (h : j ≠ []) (hn : j.Nodup) :
    dictSum (calculate_attribution_scores j "position_based")
      = if j.length = 1 then 1 else ((j.length : ℚ) + 2) / 5 := by
  rcases Nat.lt_or_ge 1 j.length with h1 | h1
  · have hlen : j.length ≠ 1 := by omega
    rw [if_neg hlen, calc_position_based j h1 hn]
    unfold dictSum
    have hv : (j.enum.map
          (fun p : Nat × String => (p.2,
            if p.1 = 0 then (0.4 : ℚ) else if p.1 = j.length - 1 then 0.4 else 0.2))).map Prod.snd
        = (List.range j.length).map
            (fun i => if i = 0 then (0.4 : ℚ) else if i = j.length - 1 then 0.4 else 0.2) :=
      enum_pairs_values j
        (fun i => if i = 0 then (0.4 : ℚ) else if i = j.length - 1 then 0.4 else 0.2)
    rw [hv]
    obtain ⟨m, hm⟩ : ∃ m, j.length = m + 2 := ⟨j.length - 2, by omega⟩
    have hfun : (fun i => if i = 0 then (0.4 : ℚ) else if i = j.length - 1 then 0.4 else 0.2)
        = (fun i => if i = 0 then (0.4 : ℚ) else if i = m + 1 then 0.4 else 0.2) := by
      funext i
      have : j.length - 1 = m + 1 := by omega
      rw [this]
    rw [hfun, hm, pos_credit_sum]
    push_cast
    ring
  · have hlen1 : j.length = 1 := by
      have : j.length ≠ 0 := fun hc => h (List.length_eq_zero.mp hc)
      omega
    obtain ⟨a, rfl⟩ := List.length_eq_one.mp hlen1
    rw [if_pos hlen1, calc_singleton_pb a]
    simp [dictSum]

/-! Facts about the count policy without any distinctness assumption: every
stored value is 1, and every url of the journey ends up among the keys. -/

theorem count_fold_mem (j : List String) :
    ∀ (d : PyDict) (a : String), a ∈ j ∨ a ∈ d.map Prod.fst →
      a ∈ (j.foldl (fun s x => dictSet s x 1) d).map Prod.fst := by
  induction j with
  | nil =>
    intro d a ha
    rcases ha with h | h
    · simp at h
    · simpa using h
  | cons x t ih =>
    intro d a ha
    simp only [List.foldl_cons]
    apply ih
    rcases ha with h | h
    · rcases List.mem_cons.mp h with rfl | hmem
      · right
        rw [dictSet_mem_keys]
        exact Or.inr rfl
      · exact Or.inl hmem
    · right
      rw [dictSet_mem_keys]
      exact Or.inl h

theorem count_fold_values (j : List String) :
    ∀ d : PyDict, (∀ p ∈ d, p.2 = (1 : ℚ)) →
      ∀ p ∈ j.foldl (fun s x => dictSet s x 1) d, p.2 = (1 : ℚ) := by
  induction j with
  | nil =>
    intro d hd
    simpa using hd
  | cons x t ih =>
    intro d hd
    simp only [List.foldl_cons]
    apply ih
    intro p hp
    rcases mem_dictSet d x 1 p hp with h | h
    · exact hd p h
    · rw [h]

theorem calc_count_find (j : List String) (a : String) (ha : a ∈ j) :
    dictFind (calculate_attribution_scores j "count") a = some 1 := by
  have hne : j ≠ [] := by
    rintro rfl
    simp at ha
  rw [calc_count j hne]
  have hmem : a ∈ (j.foldl (fun s x => dictSet s x 1) []).map Prod.fst :=
    count_fold_mem j [] a (Or.inl ha)
  obtain ⟨v, hv⟩ := dictFind_exists _ a hmem
  have hvin := mem_of_dictFind _ a v hv
  have hv1 : v = 1 := count_fold_values j [] (by simp) (a, v) hvin
  rw [hv, hv1]

theorem calc_keys_nodup (j : List String) (m : String) :
    ((calculate_attribution_scores j m).map Prod.fst).Nodup := by
  unfold calculate_attribution_scores
  split
  · simp
  · split
    · exact foldl_dictSet_keys_nodup j (fun x => x) (fun _ _ => 1) [] (by simp)
    · split
      · simp [dictSet]
      · split
        · simp [dictSet]
        · split
          · exact foldl_dictSet_keys_nodup j (fun x => x)
              (fun _ _ => 1 / (j.length : ℚ)) [] (by simp)
          · split
            · split
              · simp [dictSet]
              · rw [pb_step_eq j.length]
                exact foldl_dictSet_keys_nodup j.enum (fun p => p.2)
                  (fun _ p => if p.1 = 0 then (0.4 : ℚ)
                              else if p.1 = j.length - 1 then 0.4 else 0.2) [] (by simp)
            · split
              · split
                · simp [dictSet]
                · exact foldl_dictSet_keys_nodup j.enum (fun p => p.2)
                    (fun _ p => (2 : ℚ) ^ p.1
                      / ((List.range j.length).map (fun i => (2 : ℚ) ^ i)).sum) [] (by simp)
              · simp

/-! Membership facts for the final descending sort. -/

theorem mem_insertDesc (r : ResultRow) (l : List ResultRow) (q : ResultRow)
    (h : q ∈ insertDesc r l) : q = r ∨ q ∈ l := by
  induction l with
  | nil => simpa [insertDesc] using h
  | cons x t ih =>
    by_cases hc : r.total ≤ x.total
    · simp only [insertDesc, if_pos hc, List.mem_cons] at h
      rcases h with h | h
      · exact Or.inr (List.mem_cons.mpr (Or.inl h))
      · rcases ih h with h2 | h2
        · exact Or.inl h2
        · exact Or.inr (List.mem_cons.mpr (Or.inr h2))
    · simp only [insertDesc, if_neg hc, List.mem_cons] at h
      rcases h with h | h | h
      · exact Or.inl h
      · exact Or.inr (List.mem_cons.mpr (Or.inl h))
      · exact Or.inr (List.mem_cons.mpr (Or.inr h))

theorem mem_sortDesc_aux (l : List ResultRow) :
    ∀ (d : List ResultRow) (q : ResultRow),
      q ∈ l.foldl (fun acc r => insertDesc r acc) d → q ∈ d ∨ q ∈ l := by
  induction l with
  | nil =>
    intro d q h
    exact Or.inl (by simpa using h)
  | cons x t ih =>
    intro d q h
    simp only [List.foldl_cons] at h
    rcases ih (insertDesc x d) q h with h2 | h2
    · rcases mem_insertDesc x d q h2 with h3 | h3
      · exact Or.inr (List.mem_cons.mpr (Or.inl h3))
      · exact Or.inl h3
    · exact Or.inr (List.mem_cons.mpr (Or.inr h2))

theorem mem_sortDesc (l : List ResultRow) (q : ResultRow) (h : q ∈ sortDesc l) : q ∈ l := by
  rcases mem_sortDesc_aux l [] q h with h2 | h2
  · simp at h2
  · exact h2

/-! Claim theorems. -/

/-- C1, counterexample: the conservation-of-credit invariant fails as stated.
Under position_based a two-element journey with distinct urls receives
0.4 + 0.4 = 0.8, and under linear a journey with a repeated url loses credit
because the second assignment overwrites the first. -/
theorem C1_counterexample :
    dictSum (calculate_attribution_scores ["/a1", "/a2"] "position_based") ≠ 1
    ∧ dictSum (calculate_attribution_scores ["/a1", "/a1"] "linear") ≠ 1 := by
  constructor
  · simp [calculate_attribution_scores, dictSet, dictSum, List.enum, List.enumFrom]
    norm_num
  · simp [calculate_attribution_scores, dictSet, dictSum]

/-- C1, amended: on a non-empty journey with pairwise distinct urls the
credits returned by first_touch, last_touch, linear and time_decay sum to
exactly 1, while position_based sums to 1 for a singleton journey and to
(n + 2) / 5 for a journey of length n > 1 (which equals 1 only at n = 3);
journeys with a repeated url can sum below these values because a later
assignment overwrites the earlier credit of the same url. -/
theorem C1_amended_sum (j : List String) (hne : j ≠ []) (hd : j.Nodup) :
    (∀ m ∈ ["first_touch", "last_touch", "linear", "time_decay"],
        dictSum (calculate_attribution_scores j m) = 1)
    ∧ dictSum (calculate_attribution_scores j "position_based")
        = if j.length = 1 then 1 else ((j.length : ℚ) + 2) / 5 := by
  refine ⟨?_, sum_position_based j hne hd⟩
  intro m hm
  simp only [List.mem_cons, List.not_mem_nil, or_false] at hm
  rcases hm with rfl | rfl | rfl | rfl
  · exact sum_first_touch j hne
  · exact sum_last_touch j hne
  · exact sum_linear j hne hd
  · exact sum_time_decay j hne hd

/-- C1, witness: the amended theorem applied to the four-element journey
["/a1", "/a2", "/a3", "/a4"]. -/
theorem C1_amended_sum_witness :
    dictSum (calculate_attribution_scores ["/a1", "/a2", "/a3", "/a4"] "linear") = 1
    ∧ dictSum (calculate_attribution_scores ["/a1", "/a2", "/a3", "/a4"] "position_based")
        = if (["/a1", "/a2", "/a3", "/a4"] : List String).length = 1 then 1
          else (((["/a1", "/a2", "/a3", "/a4"] : List String).length : ℚ) + 2) / 5 := by
  have h := C1_amended_sum ["/a1", "/a2", "/a3", "/a4"] (by decide) (by decide)
  exact ⟨h.1 "linear" (by decide), h.2⟩

/-- C2, counterexample: on a journey repeating the same url, count stores 1
rather than the occurrence count 2, and position_based on a two-element
journey occupying first and last position with the same url stores 0.4
rather than 0.8. -/
theorem C2_counterexample :
    dictFind (calculate_attribution_scores ["/x", "/x"] "count") "/x" ≠ some 2
    ∧ dictFind (calculate_attribution_scores ["/x", "/x"] "position_based") "/x"
        ≠ some (0.8 : ℚ) := by
  constructor
  · simp [calculate_attribution_scores, dictSet, dictFind]
  · simp [calculate_attribution_scores, dictSet, dictFind, List.enum, List.enumFrom]
    norm_num

/-- C2, amended: the returned mapping has one entry per url for every policy
and journey, but the entry of a repeated url holds the credit of the last
matching assignment rather than the sum of its per-position credits: under
count it is 1 regardless of the occurrence count, and under position_based a
url occupying both positions of a two-element journey receives 0.4. -/
theorem C2_amended_overwrite (j : List String) (m a : String) (ha : a ∈ j) :
    ((calculate_attribution_scores j m).map Prod.fst).Nodup
    ∧ dictFind (calculate_attribution_scores j "count") a = some 1
    ∧ calculate_attribution_scores ["/x", "/x"] "position_based" = [("/x", 0.4)] := by
  refine ⟨calc_keys_nodup j m, calc_count_find j a ha, ?_⟩
  simp [calculate_attribution_scores, dictSet, List.enum, List.enumFrom]

/-- C2, witness: the amended theorem applied to the journey ["/a1", "/a2"],
the linear policy and the url "/a1". -/
theorem C2_amended_overwrite_witness :
    ((calculate_attribution_scores ["/a1", "/a2"] "linear").map Prod.fst).Nodup
    ∧ dictFind (calculate_attribution_scores ["/a1", "/a2"] "count") "/a1" = some 1
    ∧ calculate_attribution_scores ["/x", "/x"] "position_based" = [("/x", 0.4)] :=
  C2_amended_overwrite ["/a1", "/a2"] "linear" "/a1" (by decide)

/-- C3, counterexample: an unrecognized policy name on a non-empty journey
does not fail; no UnknownPolicyError exists anywhere in the code, and the
call returns the empty mapping built before the dispatch. -/
theorem C3_counterexample :
    calculate_attribution_scores ["/a1"] "bogus" = [] := by
  simp [calculate_attribution_scores]

/-- C3, amended: for every journey, a policy name outside the recognized set
makes calculate_attribution_scores fall through every branch and return the
empty mapping; no exception is raised and no credit is computed. -/
theorem C3_amended_unknown_method (j : List String) (m : String)
    (hm : m ∉ ["count", "first_touch", "last_touch", "linear",
               "position_based", "time_decay"]) :
    calculate_attribution_scores j m = [] := by
  simp only [List.mem_cons, List.mem_singleton, not_or] at hm
  obtain ⟨h1, h2, h3, h4, h5, h6⟩ := hm
  simp [calculate_attribution_scores, h1, h2, h3, h4, h5, h6]

/-- C3, witness: the amended theorem applied to the journey ["/a1"] and the
unrecognized policy name "mystery". -/
theorem C3_amended_unknown_method_witness :
    calculate_attribution_scores ["/a1"] "mystery" = [] :=
  C3_amended_unknown_method ["/a1"] "mystery" (by decide)

/-- C4, code-bug evaluation: on a log whose order disagrees with timestamp
order (article at row 0 and time 3, registration at row 1 and time 1,
article at row 2 and time 2), the extracted journey for the user is
["/register", "/articles/b", "/articles/a"]: the slice loc[:r - 1] works on
the original index labels, so it picks up the registration row itself and
both articles viewed after registration, while the claimed position-based
boundary in the time-sorted sequence would leave no event at all before the
registration and exclude the user. -/
theorem C4_code_bug_eval :
    extract_journeys c4rows
      = some [("u1", ["/register", "/articles/b", "/articles/a"])] := by
  decide

/-- C5: under time_decay, a journey of length n > 1 with distinct urls gives
position i the credit 2 to the i divided by the sum of the powers 2 to the k
for k below n; a singleton journey receives credit 1; and the concrete
three-element journey receives 1/7, 2/7 and 4/7. -/
theorem C5_time_decay (j : List String) (hn : j.Nodup) (i : Nat) (hi : i < j.length)
    (h1 : 1 < j.length) :
    dictFind (calculate_attribution_scores j "time_decay") (j.get ⟨i, hi⟩)
      = some ((2 : ℚ) ^ i / ((List.range j.length).map (fun k => (2 : ℚ) ^ k)).sum)
    ∧ (∀ a : String, calculate_attribution_scores [a] "time_decay" = [(a, 1)])
    ∧ calculate_attribution_scores ["/a1", "/a2", "/a3"] "time_decay"
      = [("/a1", 1 / 7), ("/a2", 2 / 7), ("/a3", 4 / 7)] := by
  refine ⟨?_, calc_singleton_td, ?_⟩
  · rw [calc_time_decay j h1 hn]
    apply dictFind_of_mem
    · have hk : (j.enum.map
          (fun p : Nat × String => (p.2,
            (2 : ℚ) ^ p.1 / ((List.range j.length).map (fun i => (2 : ℚ) ^ i)).sum))).map
            Prod.fst = j :=
        enum_pairs_keys j
          (fun k => (2 : ℚ) ^ k / ((List.range j.length).map (fun i => (2 : ℚ) ^ i)).sum)
      rw [hk]
      exact hn
    · exact enum_pairs_mem j
        (fun k => (2 : ℚ) ^ k / ((List.range j.length).map (fun i => (2 : ℚ) ^ i)).sum) i hi
  · simp [calculate_attribution_scores, dictSet, List.enum, List.enumFrom,
      List.range, List.range.loop]
    norm_num

/-- C5, witness: the theorem applied to the journey ["/a1", "/a2", "/a3"]
at position 1, with the singleton part instantiated at "/a0". -/
theorem C5_time_decay_witness :
    dictFind (calculate_attribution_scores ["/a1", "/a2", "/a3"] "time_decay")
        ((["/a1", "/a2", "/a3"] : List String).get ⟨1, by decide⟩)
      = some ((2 : ℚ) ^ 1
          / ((List.range (["/a1", "/a2", "/a3"] : List String).length).map
              (fun k => (2 : ℚ) ^ k)).sum)
    ∧ calculate_attribution_scores ["/a0"] "time_decay" = [("/a0", 1)]
    ∧ calculate_attribution_scores ["/a1", "/a2", "/a3"] "time_decay"
      = [("/a1", 1 / 7), ("/a2", 2 / 7), ("/a3", 4 / 7)] := by
  have h := C5_time_decay ["/a1", "/a2", "/a3"] (by decide) 1 (by decide) (by decide)
  exact ⟨h.1, h.2.1 "/a0", h.2.2⟩

/-- C6: under position_based, a journey of length n > 1 with distinct urls
gives 0.4 to position 0, 0.4 to position n - 1 and 0.2 to every middle
position; a singleton journey receives credit 1; and the concrete
three-element journey receives 0.4, 0.2 and 0.4. -/
theorem C6_position_based (j : List String) (hn : j.Nodup) (i : Nat) (hi : i < j.length)
    (h1 : 1 < j.length) :
    dictFind (calculate_attribution_scores j "position_based") (j.get ⟨i, hi⟩)
      = some (if i = 0 then (0.4 : ℚ) else if i = j.length - 1 then 0.4 else 0.2)
    ∧ (∀ a : String, calculate_attribution_scores [a] "position_based" = [(a, 1)])
    ∧ calculate_attribution_scores ["/a1", "/a2", "/a3"] "position_based"
      = [("/a1", 0.4), ("/a2", 0.2), ("/a3", 0.4)] := by
  refine ⟨?_, calc_singleton_pb, ?_⟩
  · rw [calc_position_based j h1 hn]
    apply dictFind_of_mem
    · have hk : (j.enum.map
          (fun p : Nat × String => (p.2,
            if p.1 = 0 then (0.4 : ℚ) else if p.1 = j.length - 1 then 0.4 else 0.2))).map
            Prod.fst = j :=
        enum_pairs_keys j
          (fun k => if k = 0 then (0.4 : ℚ) else if k = j.length - 1 then 0.4 else 0.2)
      rw [hk]
      exact hn
    · exact enum_pairs_mem j
        (fun k => if k = 0 then (0.4 : ℚ) else if k = j.length - 1 then 0.4 else 0.2) i hi
  · simp [calculate_attribution_scores, dictSet, List.enum, List.enumFrom]

/-- C6, witness: the theorem applied to the journey ["/a1", "/a2", "/a3"]
at position 1, with the singleton part instantiated at "/a0". -/
theorem C6_position_based_witness :
    dictFind (calculate_attribution_scores ["/a1", "/a2", "/a3"] "position_based")
        ((["/a1", "/a2", "/a3"] : List String).get ⟨1, by decide⟩)
      = some (if 1 = 0 then (0.4 : ℚ)
              else if 1 = (["/a1", "/a2", "/a3"] : List String).length - 1 then 0.4 else 0.2)
    ∧ calculate_attribution_scores ["/a0"] "position_based" = [("/a0", 1)]
    ∧ calculate_attribution_scores ["/a1", "/a2", "/a3"] "position_based"
      = [("/a1", 0.4), ("/a2", 0.2), ("/a3", 0.4)] := by
  have h := C6_position_based ["/a1", "/a2", "/a3"] (by decide) 1 (by decide) (by decide)
  exact ⟨h.1, h.2.1 "/a0", h.2.2⟩

/-- C7, code-bug evaluation: for a user whose registration is the earliest
event in time (article at row 0 and time 2, registration at row 1 and
time 1), the claimed behaviour is exclusion, since zero events precede the
first registration in the time-sorted sequence; the code instead slices by
original index label and contributes the journey
["/register", "/articles/a"] for that user. -/
theorem C7_code_bug_eval :
    extract_journeys c7rows = some [("u2", ["/register", "/articles/a"])] := by
  decide

/-- C8: for every policy name, recognized or not, the empty journey yields
the empty mapping; the test on the journey is the first branch of the
function, before any dispatch on the method name. -/
theorem C8_empty_journey (method : String) :
    calculate_attribution_scores [] method = [] := rfl

/-- C10: every row of a successful analyze_user_journeys result has its
page_name equal to the final slash-separated segment of its page_url, and
replacing every input page_name by an arbitrary value leaves the result
unchanged, so the page_name column of the input log is ignored. -/
theorem C10_page_name (rows : List Row) (m : String) (f : Row → String)
    (res : List ResultRow) (h : analyze_user_journeys rows m = some res) :
    (∀ r ∈ res, r.page_name = lastSegment r.page_url)
    ∧ analyze_user_journeys
        (rows.map (fun x => Row.mk (f x) x.page_url x.user_id x.timestamp)) m
      = some res := by
  constructor
  · intro r hr
    unfold analyze_user_journeys at h
    rcases hex : extract_journeys rows with _ | js
    · rw [hex] at h
      simp at h
    · rw [hex] at h
      simp only [Option.some.injEq] at h
      rw [← h] at hr
      have hr2 := mem_sortDesc _ _ hr
      rw [List.mem_filterMap] at hr2
      obtain ⟨p, _, hp⟩ := hr2
      by_cases hs : startsWith p.1 "/articles/" = true
      · rw [if_pos hs] at hp
        have := Option.some.inj hp
        rw [← this]
      · rw [if_neg hs] at hp
        simp at hp
  · have hproj : (rows.map (fun x => Row.mk (f x) x.page_url x.user_id x.timestamp)).map toEvent
        = rows.map toEvent := by
      rw [List.map_map]
      rfl
    unfold analyze_user_journeys extract_journeys at h ⊢
    rw [hproj]
    exact h

/-- C10, witness: the theorem applied to the two-row log c10rows under the
linear policy, with every input page name replaced by the empty string. -/
theorem C10_page_name_witness :
    (ResultRow.mk "article1" "/articles/article1" 1).page_name
      = lastSegment (ResultRow.mk "article1" "/articles/article1" 1).page_url
    ∧ analyze_user_journeys
        (c10rows.map (fun x => Row.mk "" x.page_url x.user_id x.timestamp)) "linear"
      = some [ResultRow.mk "article1" "/articles/article1" 1] := by
  have hex : extract_journeys c10rows = some [("u1", ["/articles/article1"])] := by decide
  have h : analyze_user_journeys c10rows "linear"
      = some [ResultRow.mk "article1" "/articles/article1" 1] := by
    simp [analyze_user_journeys, hex, aggregate_scores, calculate_attribution_scores,
      dictSet, dictGetD, sortDesc, insertDesc, startsWith, lastSegment, splitOnChar]
  have hmain := C10_page_name c10rows "linear" (fun _ => "") _ h
  exact ⟨hmain.1 _ (by simp), hmain.2⟩
